import Mathlib

/-!
Verification development for the search-preview extension.

The development shallowly embeds the core of the extension:
* the fuzzy ranking pipeline of `src/utils/searchUtils.ts` (`fuzzySearchFiles`,
  `processResults`) together with the exclusion filter of
  `src/utils/settingsUtils.ts` (`SettingsManager.shouldExcludeFile`);
* the MRU history store of `src/lib/editorHistory.ts` (`EditorHistoryManager`);
* the preview-session controller of `src/lib/previewManager.ts` and
  `src/lib/quickOpenProvider.ts`.

Paths are strings over `/`-separated segments; workspace-relative paths are
produced by stripping the fixed workspace root `/ws/`.  Machine reals of the
scoring code are modelled by `ℚ`.
-/

namespace SearchPreview

/-! ### Characters and strings -/

/-- Lower-case a character list (models JavaScript `toLowerCase` for the
ASCII strings the extension handles). -/
def lowerL (l : List Char) : List Char := l.map Char.toLower

/-- Boolean prefix test on character lists. -/
def isPrefixCL : List Char → List Char → Bool
  | [], _ => true
  | _ :: _, [] => false
  | a :: as, b :: bs => a = b && isPrefixCL as bs

/-- Boolean substring test on character lists: models JavaScript
`String.prototype.includes`. -/
def containsCL (pat : List Char) : List Char → Bool
  | [] => isPrefixCL pat []
  | c :: rest => isPrefixCL pat (c :: rest) || containsCL pat rest

/-- `s.includes(pat)` on strings. -/
def containsStr (s pat : String) : Bool := containsCL pat.data s.data

/-- Modelled from the spec: the Path Normalizer (§4.1), realised in the code
by `vscode.workspace.asRelativePath` (a host API, not in this repository):
it removes the workspace-root prefix and leaves everything else untouched.
The workspace root is fixed as `/ws/`. -/
def asRelativePathCL (p : List Char) : List Char :=
  if isPrefixCL "/ws/".data p then p.drop 4 else p

/-- String-level Path Normalizer. -/
def asRelativePath (p : String) : String := ⟨asRelativePathCL p.data⟩

/-- Modelled from the spec: `path.basename` (Node host library): the part of
the path after the last `/`.  The extension only feeds it slash-free or
`/`-separated file paths without trailing slashes. -/
def basenameCL (p : List Char) : List Char :=
  (p.reverse.takeWhile (fun c => c ≠ '/')).reverse

/-- String-level basename. -/
def basenameOf (p : String) : String := ⟨basenameCL p.data⟩

/-- Modelled from the spec: `path.extname` (Node host library): the suffix of
the basename from its last `.`, empty when the basename has no dot or only a
leading dot. -/
def extnameCL (p : List Char) : List Char :=
  let b := basenameCL p
  let revAfter := b.reverse.takeWhile (fun c => c ≠ '.')
  if revAfter.length + 1 < b.length then '.' :: revAfter.reverse else []

/-- Count of nonempty `/`-separated segments; the Boolean flag records
whether we are inside a segment.  Models
`relativePath.split(/[\/\\]/).filter(Boolean).length` of searchUtils.ts. -/
def countSegsCL : List Char → Bool → Nat
  | [], _ => 0
  | c :: rest, inside =>
    if c = '/' then countSegsCL rest false
    else (if inside then 0 else 1) + countSegsCL rest true

/-- Path depth as computed in `processResults` (searchUtils.ts line 120/128). -/
def pathDepth (s : String) : Nat := countSegsCL s.data false

/-! ### The compiled exclusion matchers (settingsUtils.ts)

`globToRegExp` escapes all regex metacharacters and then turns `**` into `.*`
and `*` into `[^/]*`; the resulting regexes are used unanchored
(`RegExp.test`).  The token list below is the exact image of that
compilation: every non-star character is a literal. -/

/-- A token of a compiled glob pattern. -/
inductive RTok
  | lit : Char → RTok
  | anyStar : RTok
  | noSlashStar : RTok
deriving DecidableEq

/-- Compilation of a glob into tokens, mirroring `globToRegExp`
(settingsUtils.ts lines 15-28): `**` → match anything, `*` → match anything
but `/`, anything else → literal. -/
def globToTokens : List Char → List RTok
  | [] => []
  | '*' :: '*' :: rest => .anyStar :: globToTokens rest
  | '*' :: rest => .noSlashStar :: globToTokens rest
  | c :: rest => .lit c :: globToTokens rest

/-- The suffixes of a character list reachable by deleting a (possibly
empty) slash-free prefix: the candidate continuations of `[^/]*`. -/
def noSlashTails : List Char → List (List Char)
  | [] => [[]]
  | d :: ds => (d :: ds) :: (if d = '/' then [] else noSlashTails ds)

/-- Anchored matching of a token list against a character list: a star
consumes any (slash-free, for `noSlashStar`) prefix. -/
def reMatch : List RTok → List Char → Bool
  | [], ds => ds.isEmpty
  | .lit _ :: _, [] => false
  | .lit c :: ps, d :: ds => c = d && reMatch ps ds
  | .anyStar :: ps, ds => ds.tails.any (fun t => reMatch ps t)
  | .noSlashStar :: ps, ds => (noSlashTails ds).any (fun t => reMatch ps t)

/-- Unanchored search, modelling JavaScript `RegExp.prototype.test` on the
compiled (unanchored) pattern. -/
def reTest (ps : List RTok) (s : List Char) : Bool :=
  reMatch (.anyStar :: (ps ++ [.anyStar])) s

/-- Default `searchPreview.search.excludeDirectories`
(settingsUtils.ts lines 55-61, package.json). -/
def excludeDirectories : List String :=
  ["node_modules", ".git", "venv", "env", "dist", "build"]

/-- Default `searchPreview.search.excludePatterns`
(settingsUtils.ts lines 66-72, package.json). -/
def excludePatterns : List String :=
  ["**/*.min.js", "**/*.log", "**/*.lock", "**/package-lock.json"]

/-- `SettingsManager.shouldExcludeFile` (settingsUtils.ts lines 106-128) with
the default configuration: a directory exclusion is the unanchored regex
`/dir/`, i.e. a substring test; a pattern exclusion is the unanchored
compiled glob.  Backslash normalisation is the identity on the
`/`-separated paths modelled here. -/
def shouldExcludeFile (filePath : String) : Bool :=
  excludeDirectories.any
    (fun d => containsCL ('/' :: (d.data ++ ['/'])) filePath.data)
  || excludePatterns.any (fun g => reTest (globToTokens g.data) filePath.data)

/-! ### The library-path heuristics (searchUtils.ts lines 30-54) -/

/-- `pathContains` (searchUtils.ts lines 31-35). -/
def pathContains (path segment : String) : Bool := containsCL segment.data path.data

/-- Test for the regex `\/python\d+\.\d+\//` at the head of the list. -/
def pythonVerAt (l : List Char) : Bool :=
  isPrefixCL "/python".data l &&
    (let rest := l.drop 7
     let ds1 := rest.takeWhile Char.isDigit
     let rest2 := rest.drop ds1.length
     !ds1.isEmpty &&
       (match rest2 with
        | '.' :: r3 =>
          let ds2 := r3.takeWhile Char.isDigit
          !ds2.isEmpty && ((r3.drop ds2.length).head? = some '/')
        | _ => false))

/-- Unanchored search for `\/python\d+\.\d+\//`. -/
def hasPythonVer : List Char → Bool
  | [] => pythonVerAt []
  | c :: rest => pythonVerAt (c :: rest) || hasPythonVer rest

/-- The common library directories of `isLikelyLibraryPath`
(searchUtils.ts lines 46-51). -/
def libraryDirs : List String :=
  ["/lib/", "/libs/", "/vendor/", "/node_modules/",
   "/dist/", "/build/", "/venv/", "/env/",
   "/usr/lib/", "/usr/local/", "/usr/share/",
   "/Library/Python/"]

/-- `isLikelyLibraryPath` (searchUtils.ts lines 38-54). -/
def isLikelyLibraryPath (p : String) : Bool :=
  hasPythonVer p.data || containsCL "/site-packages/".data p.data
  || libraryDirs.any (fun d => containsCL d.data p.data)

/-- The specific library names additionally penalised
(searchUtils.ts lines 107-112). -/
def specificLibs : List String :=
  ["/isort/", "/pylint/", "/autopep8/", "/black/", "/flake8/", "/mypy/"]

/-- `commonUtilityNames` (searchUtils.ts line 117). -/
def commonUtilityNames : List String :=
  ["__init__", "utils", "helpers", "common", "core", "base", "config"]

/-! ### Scores

The floating-point scores of the ranking code are modelled as exact
fractions with positive denominators (every score the pipeline builds is a
raw quality `1000 / (1 + …)` times fixed positive multipliers).  Comparisons
are by cross-multiplication, which agrees with the rational value whenever
the denominators are positive (`Score.gtB_iff_toRat`). -/

/-- An exact fractional score. -/
structure Score where
  num : Int
  den : Int
deriving DecidableEq

/-- Score multiplication. -/
def Score.mul (a b : Score) : Score := ⟨a.num * b.num, a.den * b.den⟩

/-- Strict comparison by cross-multiplication (the JavaScript comparator
`(a, b) => b.score - a.score` decides exactly this when denominators are
positive). -/
def Score.gtB (a b : Score) : Bool := b.num * a.den < a.num * b.den

/-- Equality of score values by cross-multiplication. -/
def Score.eqB (a b : Score) : Bool := a.num * b.den = b.num * a.den

/-- The rational value of a score. -/
def Score.toRat (a : Score) : ℚ := (a.num : ℚ) / (a.den : ℚ)

/-! ### The fuzzy matcher and scorer

`fuzzySearchFiles` delegates the raw match to `fuzzysort.go` (the `fuzzysort`
npm dependency, not part of this repository). -/

/-- Modelled from the spec: the ordered-subsequence matcher of the Fuzzy
Ranking Engine (§4.3 step 1, realised by the external `fuzzysort` library):
a target matches when every query character appears in it, in order,
case-insensitively; the greedy leftmost match positions are returned. -/
def greedyIdx : List Char → List Char → Nat → Option (List Nat)
  | [], _, _ => some []
  | _ :: _, [], _ => none
  | c :: cs, d :: ds, i =>
    if c.toLower = d.toLower then (greedyIdx cs ds (i + 1)).map (i :: ·)
    else greedyIdx (c :: cs) ds (i + 1)

/-- Total gap length between consecutive match positions. -/
def gapsOf : List Nat → Nat
  | [] => 0
  | [_] => 0
  | a :: b :: rest => (b - a - 1) + gapsOf (b :: rest)

/-- Modelled from the spec: the raw subsequence-match quality score of the
Fuzzy Ranking Engine (§4.3 step 2, realised by the external `fuzzysort`
library): `none` when the ordered-subsequence test fails, otherwise a
positive quality that increases with proximity of the match to the start of
the target and with fewer characters skipped between matched characters. -/
def fuzzyScore (q t : List Char) : Option Score :=
  match greedyIdx q t 0 with
  | none => none
  | some [] => some ⟨1000, 1⟩
  | some (p :: ps) => some ⟨1000, Int.ofNat (1 + p + gapsOf (p :: ps))⟩

/-- Stable insertion for a descending sort on a score projection: the new
element goes after every strictly better element and before equal ones,
which is exactly the order produced by the (stable) JavaScript
`Array.prototype.sort` with comparator `(a, b) => b.score - a.score`. -/
def insertByDesc (f : α → Score) (x : α) : List α → List α
  | [] => [x]
  | y :: ys => if (f y).gtB (f x) then y :: insertByDesc f x ys else x :: y :: ys

/-- Stable descending sort by a score projection. -/
def sortByDesc (f : α → Score) (l : List α) : List α := l.foldr (insertByDesc f) []

/-- An element of the `searchData` array of `fuzzySearchFiles`
(searchUtils.ts lines 64-68). -/
structure SearchItem where
  fsPath : String
  path : String
  basename : String
deriving DecidableEq

/-- Modelled from the spec: `fuzzysort.go(searchText, searchData, { key })`
(external library): keep the targets whose key matches, with their scores,
best score first.  The thresholds passed by the code (−5000, −10000) filter
nothing for the non-negative scores of this model. -/
def goByKey (q : String) (data : List SearchItem) (key : SearchItem → String) :
    List (SearchItem × Score) :=
  sortByDesc (fun r => r.2)
    (data.filterMap (fun d => (fuzzyScore q.data (key d).data).map (fun s => (d, s))))

/-- The contextual multiplicative adjustments of `processResults`
(searchUtils.ts lines 86-152), in the code's order: exclusion penalty,
library-path penalty, specific-library penalty, utility-name penalty,
path-depth boost or penalty, basename doubling. -/
def adjustScore (isBasename : Bool) (item : SearchItem) (score : Score) : Score :=
  let s1 := if shouldExcludeFile item.fsPath then score.mul ⟨1, 10⟩ else score
  let s2 := if isLikelyLibraryPath item.path then s1.mul ⟨1, 5⟩ else s1
  let s3 := if specificLibs.any (fun d => pathContains item.path d)
            then s2.mul ⟨1, 10⟩ else s2
  let depth := pathDepth item.path
  let s4 := if commonUtilityNames.any (fun n => containsStr item.basename n)
               && (depth > 3 || isLikelyLibraryPath item.path)
            then s3.mul ⟨7, 10⟩ else s3
  let s5 := if depth ≤ 2 then s4.mul ⟨3, 2⟩
            else if depth ≤ 3 then s4.mul ⟨13, 10⟩
            else if depth ≥ 6 then s4.mul ⟨7, 10⟩
            else s4
  if isBasename then s5.mul ⟨2, 1⟩ else s5

/-- One step of building `combinedResults` (searchUtils.ts lines 142-149):
a JavaScript `Map` keyed by `fsPath`, where a value update keeps the key's
original insertion position and only a strictly better score overwrites. -/
def upsertScore (m : List (String × Score)) (kv : String × Score) :
    List (String × Score) :=
  if (m.lookup kv.1).isSome then
    m.map (fun e => if e.1 = kv.1 ∧ kv.2.gtB e.2 then kv else e)
  else m ++ [kv]

/-- The `searchData` array of `fuzzySearchFiles` (searchUtils.ts lines 64-68). -/
def searchDataOf (files : List String) : List SearchItem :=
  files.map (fun f => SearchItem.mk f (asRelativePath f) (basenameOf f))

/-- The adjusted results fed to the dedup map by the two `processResults`
calls (searchUtils.ts lines 154-156): basename results first, then path
results, each already multiplied by its contextual adjustments. -/
def fuzzyEntries (files : List String) (searchText : String) :
    List (String × Score) :=
  (goByKey searchText (searchDataOf files) SearchItem.basename).map
      (fun r => (r.1.fsPath, adjustScore true r.1 r.2))
  ++ (goByKey searchText (searchDataOf files) SearchItem.path).map
      (fun r => (r.1.fsPath, adjustScore false r.1 r.2))

/-- The `combinedResults` map after both `processResults` passes
(searchUtils.ts lines 83-156). -/
def fuzzyCombined (files : List String) (searchText : String) :
    List (String × Score) :=
  (fuzzyEntries files searchText).foldl upsertScore []

/-- `fuzzySearchFiles` (searchUtils.ts lines 62-161): score basenames and
relative paths, adjust, deduplicate by `fsPath` keeping the better adjusted
score (basename results processed first), and sort by score descending.
Files are given by absolute `fsPath`. -/
def fuzzySearchFiles (files : List String) (searchText : String) :
    List (String × Score) :=
  sortByDesc (fun r => r.2) (fuzzyCombined files searchText)

/-- `binaryFileExtensions` (fileUtils.ts). -/
def binaryFileExtensions : List String :=
  [".jpg", ".jpeg", ".png", ".gif", ".bmp", ".ico", ".webp", ".tiff", ".svg",
   ".pdf", ".exe", ".dll", ".so", ".dylib", ".bin", ".dat",
   ".zip", ".tar", ".gz", ".bz2", ".xz", ".rar", ".7z",
   ".mp3", ".mp4", ".avi", ".mov", ".mkv", ".flv", ".webm",
   ".doc", ".docx", ".xls", ".xlsx", ".ppt", ".pptx",
   ".class", ".pyc", ".o", ".a"]

/-- `isBinaryFile` (fileUtils.ts): the extension test; the byte-content
sniffing fallback is host I/O, out of scope per spec §1, and is modelled as
"not binary". -/
def isBinaryFile (f : String) : Bool :=
  binaryFileExtensions.contains ⟨lowerL (extnameCL f.data)⟩

/-- The filename-search pipeline of `handleStandardSearch`
(quickOpenProvider.ts lines 113-161): drop binary and excluded files, then
rank with `fuzzySearchFiles`. -/
def handleStandardSearchFiles (files : List String) (value : String) :
    List (String × Score) :=
  fuzzySearchFiles
    (files.filter (fun f => !isBinaryFile f && !shouldExcludeFile f)) value

/-! ### The MRU history store (editorHistory.ts)

`EditorHistoryManager` holds a list of history entries (most recent first),
a preview-mode flag, the set of previewed file paths and the last explicitly
opened file.  Wall-clock timestamps (`Date.now()`) are passed in explicitly.
Persistence (`saveHistory`/`vscode.Memento`) is host storage, out of scope
per spec §1, and has no effect on the in-memory state modelled here. -/

/-- A document URI: scheme and filesystem path (`vscode.Uri`). -/
structure Uri where
  scheme : String
  fsPath : String
deriving DecidableEq

/-- `EditorHistoryItem` (types.ts) together with the `relativePath` field the
manager stores (editorHistory.ts lines 88-94). -/
structure HistoryEntry where
  uri : Uri
  timestamp : Nat
  linePos : Nat
  colPos : Nat
  relativePath : String
deriving DecidableEq

/-- The slice of a `vscode.TextEditor` the manager reads: the document URI
and the active selection position. -/
structure Editor where
  uri : Uri
  selLine : Nat
  selCol : Nat
deriving DecidableEq

/-- The mutable state of `EditorHistoryManager` (editorHistory.ts lines 5-9). -/
structure HistState where
  history : List HistoryEntry
  previewMode : Bool
  previewedFiles : List String
  lastOpenedFile : Option String
deriving DecidableEq

/-- `MAX_HISTORY_SIZE` (editorHistory.ts line 6). -/
def MAX_HISTORY_SIZE : Nat := 100

/-- The capacity trim (editorHistory.ts lines 96-99 and 142-145): pop the
tail when the list grew beyond `MAX_HISTORY_SIZE`. -/
def trimHistory (l : List HistoryEntry) : List HistoryEntry :=
  if l.length > MAX_HISTORY_SIZE then l.dropLast else l

/-- Removal of the existing entry for a relative path
(editorHistory.ts lines 79-85 and 125-131): `findIndex` compares
`asRelativePath(item.uri.fsPath)` with the given relative path and `splice`
removes the first hit, which is exactly `List.eraseP`. -/
def histEraseRel (l : List HistoryEntry) (relativePath : String) :
    List HistoryEntry :=
  l.eraseP (fun e => asRelativePath e.uri.fsPath == relativePath)

/-- `setPreviewMode` (editorHistory.ts lines 48-55): set the flag; clear the
previewed-file set when disabling. -/
def setPreviewMode (s : HistState) (mode : Bool) : HistState :=
  { s with previewMode := mode,
           previewedFiles := if mode then s.previewedFiles else [] }

/-- `addPreviewedFile` (editorHistory.ts lines 60-62): `Set.add`. -/
def addPreviewedFile (s : HistState) (filePath : String) : HistState :=
  { s with previewedFiles :=
      if s.previewedFiles.contains filePath then s.previewedFiles
      else filePath :: s.previewedFiles }

/-- The entry `forceAddToHistory` unshifts (editorHistory.ts lines 68-94):
a fresh `file`-scheme URI with the requested cursor position. -/
def newFileEntry (filePath : String) (linePos colPos now : Nat) : HistoryEntry :=
  ⟨⟨"file", filePath⟩, now, linePos, colPos, asRelativePath filePath⟩

/-- `forceAddToHistory` (editorHistory.ts lines 68-103). -/
def forceAddToHistory (s : HistState) (filePath : String)
    (linePos colPos now : Nat) : HistState :=
  { s with lastOpenedFile := some filePath,
           history := trimHistory
             (newFileEntry filePath linePos colPos now ::
               histEraseRel s.history (asRelativePath filePath)) }

/-- The entry `updateHistory` unshifts (editorHistory.ts lines 134-140): the
editor's URI with its current selection position. -/
def editorEntry (ed : Editor) (now : Nat) : HistoryEntry :=
  ⟨ed.uri, now, ed.selLine, ed.selCol, asRelativePath ed.uri.fsPath⟩

/-- `updateHistory` (editorHistory.ts lines 108-149): skip previewed files
while preview mode is on unless the file was just explicitly opened;
otherwise reset `lastOpenedFile` and move-or-insert the entry at the front. -/
def updateHistory (s : HistState) (ed : Editor) (now : Nat) : HistState :=
  if s.previewMode && s.previewedFiles.contains ed.uri.fsPath
      && (s.lastOpenedFile != some ed.uri.fsPath) then s
  else
    { s with lastOpenedFile := none,
             history := trimHistory
               (editorEntry ed now ::
                 histEraseRel s.history (asRelativePath ed.uri.fsPath)) }

/-- The active-editor listener registered by the constructor
(editorHistory.ts lines 30-34): update history only for `file`-scheme
documents outside preview mode. -/
def ctorListener (s : HistState) (ed : Editor) (now : Nat) : HistState :=
  if ed.uri.scheme == "file" && !s.previewMode then updateHistory s ed now else s

/-- The active-editor listener registered by `registerListeners`
(editorHistory.ts lines 170-188): update history for `file`-scheme documents
unless in preview mode with the file previewed and not just opened. -/
def regListener (s : HistState) (ed : Editor) (now : Nat) : HistState :=
  if ed.uri.scheme == "file"
      && (!s.previewMode || !s.previewedFiles.contains ed.uri.fsPath
          || s.lastOpenedFile == some ed.uri.fsPath)
  then updateHistory s ed now else s

/-- One `onDidChangeActiveTextEditor` event: extension.ts registers the
constructor listener first and `registerListeners` second, so both handlers
run in that order. -/
def activationEvent (s : HistState) (ed : Editor) (now : Nat) : HistState :=
  regListener (ctorListener s ed now) ed now

/-! ### The preview session controller
(previewManager.ts, quickOpenProvider.ts)

A session couples the history store with the host editor state the
controller manipulates: the active editor and the snapshot of the editor
that was active when the session opened (`previousActiveEditor`).  Showing a
document makes it the active editor; when the active document changes, the
host fires the activation event for the two registered listeners. -/

/-- The session state: history store, active editor, and the
`previousActiveEditor` snapshot of `PreviewManager`. -/
structure Session where
  hist : HistState
  active : Option Editor
  prevActive : Option Editor
deriving DecidableEq

/-- Opening the picker (quickOpenProvider.ts lines 42,
previewManager.ts lines 22-34): store the active-editor snapshot and enable
preview mode on the history store. -/
def sessionOpen (s : Session) : Session :=
  { s with hist := setPreviewMode s.hist true, prevActive := s.active }

/-- `peekItem` (previewManager.ts lines 67-108): skip binary files;
otherwise register the file as previewed and show it as a transient preview
at the item's position, which makes it the active editor and fires the
activation event. -/
def peekItemSession (s : Session) (filePath : String)
    (linePos colPos now : Nat) : Session :=
  if isBinaryFile filePath then s
  else
    let ed : Editor := ⟨⟨"file", filePath⟩, linePos, colPos⟩
    { s with hist := activationEvent (addPreviewedFile s.hist filePath) ed now,
             active := some ed }

/-- Cancelling the session (`onDidHide`, quickOpenProvider.ts lines 48-57;
`setPreviewMode(false)` then `restoreActiveEditor`,
previewManager.ts lines 22-62): disable preview mode, then re-show the
snapshot editor with its original selection; re-showing a different document
changes the active editor and fires the activation event. -/
def cancelSession (s : Session) (now : Nat) : Session :=
  let h1 := setPreviewMode s.hist false
  match s.prevActive with
  | none => { s with hist := h1 }
  | some ed =>
    if s.active.map Editor.uri == some ed.uri then
      { hist := h1, active := some ed, prevActive := none }
    else
      { hist := activationEvent h1 ed now, active := some ed, prevActive := none }

/-- Accepting an item (`onDidAccept`, quickOpenProvider.ts lines 99-107;
`openSelectedFile`, previewManager.ts lines 120-161): disable preview mode,
force-add the file to history, open it persistently (for text files this
makes it the active editor with the cursor set by `setCursorPosition` and
fires the activation event), clear the snapshot; the subsequent `hide` runs
the `onDidHide` handler, which disables preview mode again and finds no
snapshot to restore. -/
def acceptSession (s : Session) (filePath : String)
    (linePos colPos now : Nat) : Session :=
  let h1 := setPreviewMode s.hist false
  let h2 := forceAddToHistory h1 filePath linePos colPos now
  if isBinaryFile filePath then
    { hist := setPreviewMode h2 false, active := s.active, prevActive := none }
  else
    let ed : Editor := ⟨⟨"file", filePath⟩, linePos, colPos⟩
    { hist := setPreviewMode (activationEvent h2 ed now) false,
      active := some ed, prevActive := none }

/-- Browsing a list of candidates: one `peekItem` per highlighted item. -/
def browse (s : Session) (ps : List (String × Nat × Nat)) (now : Nat) : Session :=
  ps.foldl (fun st q => peekItemSession st q.1 q.2.1 q.2.2 now) s

/-! ### The ordering the spec claims for ranking results

`specTieOrderedB` renders the spec's contract for `rank` (§4.3): descending
by score, ties broken by shorter relative-path length, then
lexicographically by relative path.  It is written from the spec's words,
to be compared against the order `fuzzySearchFiles` actually produces. -/

/-- Lexicographic comparison of character lists. -/
def lexLeCL : List Char → List Char → Bool
  | [], _ => true
  | _ :: _, [] => false
  | a :: as, b :: bs => if a < b then true else if b < a then false else lexLeCL as bs

/-- The spec's claimed pairwise order for two ranked results. -/
def specPairLeB (a b : String × Score) : Bool :=
  a.2.gtB b.2 ||
    (a.2.eqB b.2 &&
      (decide ((asRelativePath a.1).length < (asRelativePath b.1).length) ||
        ((asRelativePath a.1).length == (asRelativePath b.1).length &&
          lexLeCL (asRelativePath a.1).data (asRelativePath b.1).data)))

/-- The spec's claimed order for a ranked result list: every pair in order. -/
def specTieOrderedB : List (String × Score) → Bool
  | [] => true
  | a :: rest => rest.all (fun b => specPairLeB a b) && specTieOrderedB rest

/-- Well-formedness of a history list: the stored `relativePath` field is the
normalisation of the stored URI, as every entry the store builds satisfies. -/
def histWF (l : List HistoryEntry) : Prop :=
  ∀ e ∈ l, e.relativePath = asRelativePath e.uri.fsPath

instance : DecidablePred histWF := fun l =>
  inferInstanceAs (Decidable (∀ e ∈ l, e.relativePath = asRelativePath e.uri.fsPath))

/-! ## Helper lemmas -/

theorem Score.gtB_iff_toRat {a b : Score} (ha : 0 < a.den) (hb : 0 < b.den) :
    a.gtB b = true ↔ b.toRat < a.toRat := by
  have ha' : (0 : ℚ) < (a.den : ℚ) := by exact_mod_cast ha
  have hb' : (0 : ℚ) < (b.den : ℚ) := by exact_mod_cast hb
  rw [Score.gtB, Score.toRat, Score.toRat, div_lt_div_iff₀ hb' ha', decide_eq_true_eq]
  exact_mod_cast Iff.rfl

theorem Score.not_gtB_iff_toRat {a b : Score} (ha : 0 < a.den) (hb : 0 < b.den) :
    a.gtB b = false ↔ a.toRat ≤ b.toRat := by
  have ha' : (0 : ℚ) < (a.den : ℚ) := by exact_mod_cast ha
  have hb' : (0 : ℚ) < (b.den : ℚ) := by exact_mod_cast hb
  rw [Score.gtB, Score.toRat, Score.toRat, div_le_div_iff₀ ha' hb',
    decide_eq_false_iff_not, not_lt]
  exact_mod_cast Iff.rfl

theorem fuzzyScore_den_pos {q t : List Char} {s : Score}
    (h : fuzzyScore q t = some s) : 0 < s.den := by
  unfold fuzzyScore at h
  rcases hg : greedyIdx q t 0 with _ | ⟨_ | ⟨p, ps⟩⟩ <;> rw [hg] at h <;>
    simp only [Option.some.injEq, reduceCtorEq] at h
  · subst h; decide
  · subst h
    dsimp only
    have hp : 0 < 1 + p + gapsOf (p :: ps) := by omega
    exact Int.ofNat_pos.mpr hp

set_option maxHeartbeats 1000000 in
theorem adjustScore_den_pos {s : Score} (hs : 0 < s.den) (isB : Bool)
    (item : SearchItem) : 0 < (adjustScore isB item s).den := by
  unfold adjustScore
  dsimp only
  split_ifs <;> (repeat' apply mul_pos) <;> first | exact hs | decide

theorem mem_insertByDesc {f : α → Score} {x y : α} {l : List α} :
    y ∈ insertByDesc f x l ↔ y = x ∨ y ∈ l := by
  induction l with
  | nil => simp [insertByDesc]
  | cons z zs ih =>
    unfold insertByDesc
    split <;> simp only [List.mem_cons, ih]
    all_goals tauto

theorem mem_sortByDesc {f : α → Score} {y : α} {l : List α} :
    y ∈ sortByDesc f l ↔ y ∈ l := by
  induction l with
  | nil => simp [sortByDesc]
  | cons z zs ih =>
    simp only [sortByDesc, List.foldr_cons] at *
    rw [mem_insertByDesc, ih, List.mem_cons]

theorem pairwise_insertByDesc {f : α → Score} {x : α} {l : List α}
    (hx : 0 < (f x).den) (hl : ∀ y ∈ l, 0 < (f y).den)
    (h : l.Pairwise (fun a b => (f b).toRat ≤ (f a).toRat)) :
    (insertByDesc f x l).Pairwise (fun a b => (f b).toRat ≤ (f a).toRat) := by
  induction l with
  | nil => simp [insertByDesc]
  | cons y ys ih =>
    have hy : 0 < (f y).den := hl y (List.mem_cons_self _ _)
    have hys : ∀ z ∈ ys, 0 < (f z).den := fun z hz => hl z (List.mem_cons_of_mem _ hz)
    unfold insertByDesc
    split
    · rename_i hgt
      refine List.Pairwise.cons ?_ (ih hys h.of_cons)
      intro z hz
      rcases mem_insertByDesc.mp hz with rfl | hz'
      · exact le_of_lt ((Score.gtB_iff_toRat hy hx).mp hgt)
      · exact (List.pairwise_cons.mp h).1 z hz'
    · rename_i hngt
      have hyx : (f y).toRat ≤ (f x).toRat :=
        (Score.not_gtB_iff_toRat hy hx).mp (Bool.not_eq_true _ ▸ eq_false_of_ne_true hngt)
      refine List.Pairwise.cons ?_ h
      intro z hz
      rcases List.mem_cons.mp hz with rfl | hz'
      · exact hyx
      · exact le_trans ((List.pairwise_cons.mp h).1 z hz') hyx

theorem pairwise_sortByDesc {f : α → Score} {l : List α}
    (hl : ∀ y ∈ l, 0 < (f y).den) :
    (sortByDesc f l).Pairwise (fun a b => (f b).toRat ≤ (f a).toRat) := by
  induction l with
  | nil => simp [sortByDesc]
  | cons z zs ih =>
    have hz : 0 < (f z).den := hl z (List.mem_cons_self _ _)
    have hzs : ∀ y ∈ zs, 0 < (f y).den := fun y hy => hl y (List.mem_cons_of_mem _ hy)
    simp only [sortByDesc, List.foldr_cons]
    exact pairwise_insertByDesc hz
      (fun y hy => hzs y (mem_sortByDesc.mp hy)) (ih hzs)

theorem mem_upsertScore {m : List (String × Score)} {kv x : String × Score}
    (hx : x ∈ upsertScore m kv) : x ∈ m ∨ x = kv := by
  unfold upsertScore at hx
  split at hx
  · rcases List.mem_map.mp hx with ⟨e, he, hex⟩
    by_cases hc : e.1 = kv.1 ∧ kv.2.gtB e.2
    · rw [if_pos hc] at hex; exact Or.inr hex.symm
    · rw [if_neg hc] at hex; exact Or.inl (hex ▸ he)
  · rcases List.mem_append.mp hx with h | h
    · exact Or.inl h
    · exact Or.inr (List.mem_singleton.mp h)

theorem mem_foldl_upsert {es : List (String × Score)} {m : List (String × Score)}
    {x : String × Score} (hx : x ∈ es.foldl upsertScore m) :
    x ∈ m ∨ x ∈ es := by
  induction es generalizing m with
  | nil => exact Or.inl hx
  | cons kv es ih =>
    rcases ih (m := upsertScore m kv) hx with h | h
    · rcases mem_upsertScore h with h' | h'
      · exact Or.inl h'
      · exact Or.inr (h' ▸ List.mem_cons_self _ _)
    · exact Or.inr (List.mem_cons_of_mem _ h)

theorem mem_goByKey {q : String} {data : List SearchItem}
    {key : SearchItem → String} {r : SearchItem × Score}
    (hr : r ∈ goByKey q data key) :
    r.1 ∈ data ∧ fuzzyScore q.data (key r.1).data = some r.2 := by
  have hmem := mem_sortByDesc.mp hr
  rcases List.mem_filterMap.mp hmem with ⟨d, hd, hmap⟩
  rcases hf : fuzzyScore q.data (key d).data with _ | s <;> rw [hf] at hmap
  · simp at hmap
  · simp only [Option.map_some', Option.some.injEq] at hmap
    subst hmap
    exact ⟨hd, hf⟩

theorem greedy_lower_sublist :
    ∀ (t q : List Char) (i : Nat) (idx : List Nat),
      greedyIdx q t i = some idx → (lowerL q).Sublist (lowerL t) := by
  intro t
  induction t with
  | nil =>
    intro q i idx h
    cases q with
    | nil => exact List.Sublist.refl _
    | cons c cs => simp [greedyIdx] at h
  | cons d ds ih =>
    intro q i idx h
    cases q with
    | nil => simp [lowerL]
    | cons c cs =>
      by_cases hc : c.toLower = d.toLower
      · rw [greedyIdx, if_pos hc] at h
        rcases hg : greedyIdx cs ds (i + 1) with _ | idx' <;> rw [hg] at h
        · simp at h
        · have hsub := ih cs (i + 1) idx' hg
          simpa [lowerL, hc] using List.Sublist.cons₂ d.toLower hsub
      · rw [greedyIdx, if_neg hc] at h
        exact List.Sublist.cons d.toLower (ih (c :: cs) (i + 1) idx h)

/-- Every result of `fuzzySearchFiles` originates, through the dedup map,
from a basename or path match of the matcher: the witness records the item,
whether the match was on the basename, and the raw score. -/
theorem fuzzySearchFiles_origin {files : List String} {q : String}
    {x : String × Score} (hx : x ∈ fuzzySearchFiles files q) :
    ∃ (r : SearchItem × Score) (isB : Bool),
      r.1 ∈ searchDataOf files ∧
      fuzzyScore q.data (cond isB r.1.basename r.1.path).data = some r.2 ∧
      x = (r.1.fsPath, adjustScore isB r.1 r.2) := by
  have hx' : x ∈ fuzzyCombined files q := mem_sortByDesc.mp hx
  have hent : x ∈ fuzzyEntries files q := by
    rcases mem_foldl_upsert hx' with h | h
    · exact absurd h (List.not_mem_nil x)
    · exact h
  rcases List.mem_append.mp hent with h | h
  · rcases List.mem_map.mp h with ⟨r, hr, hxr⟩
    rcases mem_goByKey hr with ⟨hrd, hrs⟩
    exact ⟨r, true, hrd, by rw [Bool.cond_true]; exact hrs, hxr.symm⟩
  · rcases List.mem_map.mp h with ⟨r, hr, hxr⟩
    rcases mem_goByKey hr with ⟨hrd, hrs⟩
    exact ⟨r, false, hrd, by rw [Bool.cond_false]; exact hrs, hxr.symm⟩

/-- Members of the search data are the items built from the input files. -/
theorem mem_searchDataOf {files : List String} {d : SearchItem}
    (hd : d ∈ searchDataOf files) :
    d.path = asRelativePath d.fsPath ∧ d.basename = basenameOf d.fsPath := by
  rcases List.mem_map.mp hd with ⟨f, _, rfl⟩
  exact ⟨rfl, rfl⟩

/-! ## The claims -/

/-- C1: every `ScoredCandidate` returned by `fuzzySearchFiles` is such that
each character of the query appears, in order and case-insensitively, not
necessarily contiguously, in the candidate's basename or in its
workspace-relative path; candidates failing the ordered-subsequence test on
both targets never enter the result map, so they are absent from the
output. -/
theorem ranked_results_match_query (files : List String) (q : String)
    (x : String × Score) (hx : x ∈ fuzzySearchFiles files q) :
    (lowerL q.data).Sublist (lowerL (basenameOf x.1).data) ∨
    (lowerL q.data).Sublist (lowerL (asRelativePath x.1).data) := by
  rcases fuzzySearchFiles_origin hx with ⟨r, isB, hrd, hrs, hxr⟩
  rcases mem_searchDataOf hrd with ⟨hpath, hbase⟩
  have hx1 : x.1 = r.1.fsPath := by rw [hxr]
  cases isB with
  | true =>
    left
    rw [hx1, ← hbase]
    rw [Bool.cond_true] at hrs
    unfold fuzzyScore at hrs
    rcases hg : greedyIdx q.data r.1.basename.data 0 with _ | idx <;> rw [hg] at hrs
    · exact absurd hrs (by simp)
    · exact greedy_lower_sublist _ _ _ _ hg
  | false =>
    right
    rw [hx1, ← hpath]
    rw [Bool.cond_false] at hrs
    unfold fuzzyScore at hrs
    rcases hg : greedyIdx q.data r.1.path.data 0 with _ | idx <;> rw [hg] at hrs
    · exact absurd hrs (by simp)
    · exact greedy_lower_sublist _ _ _ _ hg

/-- Witness for C1 at a concrete input: the single candidate `/ws/a.ts` is
returned for query `a`, and the query is a subsequence of its basename. -/
theorem ranked_results_match_query_witness :
    (("/ws/a.ts", (⟨6000, 2⟩ : Score)) ∈ fuzzySearchFiles ["/ws/a.ts"] "a") ∧
    ((lowerL "a".data).Sublist (lowerL (basenameOf "/ws/a.ts").data) ∨
      (lowerL "a".data).Sublist (lowerL (asRelativePath "/ws/a.ts").data)) :=
  ⟨by decide,
    ranked_results_match_query ["/ws/a.ts"] "a" ("/ws/a.ts", ⟨6000, 2⟩) (by decide)⟩

/-- C2: for the candidate set of the spec scenario with `node_modules`
excluded by the default configuration, query `index` yields exactly
`src/index.ts` first and `src/lib/index.ts` second; the `node_modules`
candidate is filtered out before ranking and absent from the output. -/
theorem scenario_index_ranking :
    (handleStandardSearchFiles
        ["/ws/src/index.ts", "/ws/src/lib/index.ts", "/ws/node_modules/lib/index.ts"]
        "index").map (fun x => asRelativePath x.1)
      = ["src/index.ts", "src/lib/index.ts"] := by decide

/-- C3, counterexample: the claim's tie-break (equal scores ordered by
shorter relative path, then lexicographically) fails on the code.  For the
candidates `/ws/b.ts` and `/ws/a.ts` and query `ts` both candidates receive
the same score, yet the output keeps processing order `b.ts, a.ts` instead
of the lexicographic `a.ts, b.ts` the claim requires: the final sort
compares scores only. -/
theorem rank_tie_break_counterexample :
    specTieOrderedB (fuzzySearchFiles ["/ws/b.ts", "/ws/a.ts"] "ts") = false ∧
    fuzzySearchFiles ["/ws/b.ts", "/ws/a.ts"] "ts"
      = [("/ws/b.ts", ⟨6000, 6⟩), ("/ws/a.ts", ⟨6000, 6⟩)] := by
  constructor <;> decide

/-- C3, amended: the list returned by `fuzzySearchFiles` is sorted in
descending (non-increasing) order of score; candidates with equal scores
keep their stable processing order, and no path-length or lexicographic
tie-break is applied. -/
theorem rank_sorted_descending (files : List String) (q : String) :
    (fuzzySearchFiles files q).Pairwise
      (fun a b => Score.toRat b.2 ≤ Score.toRat a.2) := by
  unfold fuzzySearchFiles
  apply pairwise_sortByDesc
  intro y hy
  have hent : y ∈ fuzzyEntries files q := by
    rcases mem_foldl_upsert hy with h | h
    · exact absurd h (List.not_mem_nil y)
    · exact h
  rcases List.mem_append.mp hent with h | h <;>
    rcases List.mem_map.mp h with ⟨r, hr, hxr⟩ <;>
    rcases mem_goByKey hr with ⟨-, hrs⟩ <;>
    rw [← hxr] <;>
    exact adjustScore_den_pos (fuzzyScore_den_pos hrs) _ _

/-! ## Helper lemmas for the history store -/

theorem eraseP_congr {p q : α → Bool} :
    ∀ {l : List α}, (∀ a ∈ l, p a = q a) → l.eraseP p = l.eraseP q := by
  intro l
  induction l with
  | nil => intro _; rfl
  | cons a t ih =>
    intro h
    by_cases hpa : p a = true
    · rw [List.eraseP_cons_of_pos hpa, List.eraseP_cons_of_pos (h a (List.mem_cons_self _ _) ▸ hpa)]
    · rw [List.eraseP_cons_of_neg hpa,
        List.eraseP_cons_of_neg (h a (List.mem_cons_self _ _) ▸ hpa),
        ih (fun b hb => h b (List.mem_cons_of_mem _ hb))]

theorem countP_eraseP_self {p : α → Bool} :
    ∀ {l : List α}, l.countP p ≤ 1 → (l.eraseP p).countP p = 0 := by
  intro l
  induction l with
  | nil => intro _; rfl
  | cons a t ih =>
    intro h
    by_cases hpa : p a = true
    · rw [List.eraseP_cons_of_pos hpa]
      rw [List.countP_cons_of_pos _ _ hpa] at h
      omega
    · rw [List.eraseP_cons_of_neg hpa, List.countP_cons_of_neg _ _ hpa]
      rw [List.countP_cons_of_neg _ _ hpa] at h
      exact ih h

theorem filter_not_eraseP {p : α → Bool} :
    ∀ (l : List α), (l.eraseP p).filter (fun a => !p a) = l.filter (fun a => !p a) := by
  intro l
  induction l with
  | nil => rfl
  | cons a t ih =>
    by_cases hpa : p a = true
    · rw [List.eraseP_cons_of_pos hpa, List.filter_cons_of_neg (by simp [hpa])]
    · rw [List.eraseP_cons_of_neg hpa, List.filter_cons_of_pos (by simp [hpa]),
        List.filter_cons_of_pos (by simp [hpa]), ih]

theorem countP_le_one_of_nodup {l : List HistoryEntry} (rp : String)
    (h : (l.map HistoryEntry.relativePath).Nodup) :
    l.countP (fun e => e.relativePath == rp) ≤ 1 := by
  have hc := List.nodup_iff_count_le_one.mp h rp
  rw [List.count_eq_countP, List.countP_map] at hc
  exact hc

theorem histEraseRel_eq_eraseP {l : List HistoryEntry} {rp : String}
    (hwf : histWF l) :
    histEraseRel l rp = l.eraseP (fun e => e.relativePath == rp) :=
  eraseP_congr (fun e he => by rw [hwf e he])

theorem trimHistory_sublist (l : List HistoryEntry) :
    (trimHistory l).Sublist l := by
  unfold trimHistory
  split
  · rw [List.dropLast_eq_take]; exact List.take_sublist _ _
  · exact List.Sublist.refl _

theorem mem_trimHistory {l : List HistoryEntry} {e : HistoryEntry}
    (he : e ∈ trimHistory l) : e ∈ l :=
  (trimHistory_sublist l).subset he

theorem length_trimHistory_le {l : List HistoryEntry}
    (h : l.length ≤ MAX_HISTORY_SIZE + 1) :
    (trimHistory l).length ≤ MAX_HISTORY_SIZE := by
  unfold trimHistory
  split
  · rw [List.length_dropLast]; omega
  · omega

theorem head?_trimHistory_cons (x : HistoryEntry) (l : List HistoryEntry) :
    (trimHistory (x :: l)).head? = some x := by
  unfold trimHistory
  split
  · rename_i h
    cases l with
    | nil => simp [MAX_HISTORY_SIZE] at h
    | cons b bs => rfl
  · rfl

/-- The history list produced by a move-or-insert of a well-formed entry:
exactly one entry for its relative path remains, and it sits at the front. -/
theorem touch_countP_head {l : List HistoryEntry} {r : String} {w : HistoryEntry}
    (hw : w.relativePath = r)
    (hcnt : l.countP (fun e => e.relativePath == r) ≤ 1)
    (hwf : histWF l) :
    (trimHistory (w :: histEraseRel l r)).countP
        (fun e => e.relativePath == r) = 1 ∧
    (trimHistory (w :: histEraseRel l r)).head? = some w := by
  have hpw : (w.relativePath == r) = true := by simp [hw]
  have herased : (histEraseRel l r).countP (fun e => e.relativePath == r) = 0 := by
    rw [histEraseRel_eq_eraseP hwf]
    exact countP_eraseP_self hcnt
  refine ⟨?_, head?_trimHistory_cons _ _⟩
  have hle : (trimHistory (w :: histEraseRel l r)).countP
      (fun e => e.relativePath == r)
      ≤ (w :: histEraseRel l r).countP (fun e => e.relativePath == r) :=
    (trimHistory_sublist _).countP_le _
  have hup : (w :: histEraseRel l r).countP (fun e => e.relativePath == r) = 1 := by
    rw [List.countP_cons, herased, if_pos hpw]
  have hfront : ∃ m, trimHistory (w :: histEraseRel l r) = w :: m ∧
      m.Sublist (histEraseRel l r) := by
    unfold trimHistory
    split
    · rename_i h
      cases hh : histEraseRel l r with
      | nil => rw [hh] at h; simp [MAX_HISTORY_SIZE] at h
      | cons b bs =>
        refine ⟨(b :: bs).dropLast, List.dropLast_cons₂, ?_⟩
        rw [List.dropLast_eq_take]; exact List.take_sublist _ _
    · exact ⟨histEraseRel l r, rfl, List.Sublist.refl _⟩
  rcases hfront with ⟨m, hm, hms⟩
  rw [hm, List.countP_cons, if_pos hpw]
  have : m.countP (fun e => e.relativePath == r) = 0 := by
    have := hms.countP_le (fun e => e.relativePath == r)
    omega
  omega

/-- A move-or-insert of a well-formed entry preserves the at-most-one-entry-
per-relative-path invariant. -/
theorem touch_nodup {l : List HistoryEntry} {rp : String} {ent : HistoryEntry}
    (hent : ent.relativePath = rp)
    (hnd : (l.map HistoryEntry.relativePath).Nodup)
    (hwf : histWF l) :
    ((trimHistory (ent :: histEraseRel l rp)).map HistoryEntry.relativePath).Nodup := by
  have hsub : (trimHistory (ent :: histEraseRel l rp)).Sublist
      (ent :: histEraseRel l rp) := trimHistory_sublist _
  refine List.Nodup.sublist (hsub.map HistoryEntry.relativePath) ?_
  rw [List.map_cons]
  refine List.nodup_cons.mpr ⟨?_, ?_⟩
  · intro hmem
    rcases List.mem_map.mp hmem with ⟨e, he, heq⟩
    have h0 : (histEraseRel l rp).countP (fun e => e.relativePath == rp) = 0 := by
      rw [histEraseRel_eq_eraseP hwf]
      exact countP_eraseP_self (countP_le_one_of_nodup rp hnd)
    have : ¬((fun e => e.relativePath == rp) e = true) :=
      List.countP_eq_zero.mp h0 e he
    exact this (by simp [heq, hent])
  · refine List.Nodup.sublist ?_ hnd
    rw [histEraseRel_eq_eraseP hwf]
    exact (List.eraseP_sublist l).map HistoryEntry.relativePath

/-- The history list is untouched outside the touched relative path. -/
theorem touch_frame {l : List HistoryEntry} {rp : String} {ent : HistoryEntry}
    (hent : ent.relativePath = rp)
    (hwf : histWF l) (hlen : l.length ≤ MAX_HISTORY_SIZE)
    (hin : rp ∈ l.map HistoryEntry.relativePath ∨ l.length < MAX_HISTORY_SIZE) :
    (trimHistory (ent :: histEraseRel l rp)).filter
        (fun e => !(e.relativePath == rp))
      = l.filter (fun e => !(e.relativePath == rp)) := by
  have hnotrim : trimHistory (ent :: histEraseRel l rp) = ent :: histEraseRel l rp := by
    unfold trimHistory
    rw [if_neg]
    simp only [not_lt, List.length_cons]
    rcases hin with hin | hin
    · rcases List.mem_map.mp hin with ⟨e, he, heq⟩
      have : (histEraseRel l rp).length + 1 = l.length := by
        rw [histEraseRel_eq_eraseP hwf]
        exact List.length_eraseP_add_one he (by simp [heq])
      omega
    · have : (histEraseRel l rp).length ≤ l.length :=
        (histEraseRel_eq_eraseP hwf ▸ List.eraseP_sublist l).length_le
      omega
  rw [hnotrim, List.filter_cons_of_neg (by simp [hent]), histEraseRel_eq_eraseP hwf]
  exact filter_not_eraseP l

theorem histWF_touch {l : List HistoryEntry} {rp : String} {ent : HistoryEntry}
    (hent : ent.relativePath = asRelativePath ent.uri.fsPath) (hwf : histWF l) :
    histWF (trimHistory (ent :: histEraseRel l rp)) := by
  intro e he
  rcases List.mem_cons.mp (mem_trimHistory he) with rfl | he'
  · exact hent
  · unfold histEraseRel at he'
    exact hwf e (List.mem_of_mem_eraseP he')

theorem touch_length_le {l : List HistoryEntry}
    (hlen : l.length ≤ MAX_HISTORY_SIZE) (ent : HistoryEntry) (rp : String) :
    (trimHistory (ent :: histEraseRel l rp)).length ≤ MAX_HISTORY_SIZE := by
  apply length_trimHistory_le
  have herl : (histEraseRel l rp).length ≤ l.length := by
    unfold histEraseRel; exact (List.eraseP_sublist l).length_le
  simp only [List.length_cons]
  omega

/-- C4: enabling preview mode, suppressing any number of paths, and then
disabling preview mode with no forced touch in between leaves the history
list exactly as it was (so no suppressed path gains a new committed entry),
and the suppression set is empty afterwards. -/
theorem preview_suppression_cycle (s : HistState) (ps : List String) :
    (setPreviewMode (ps.foldl addPreviewedFile (setPreviewMode s true)) false).history
        = s.history ∧
    (setPreviewMode (ps.foldl addPreviewedFile (setPreviewMode s true)) false).previewedFiles
        = [] := by
  have hfold : ∀ (t : HistState), (ps.foldl addPreviewedFile t).history = t.history := by
    intro t
    induction ps generalizing t with
    | nil => rfl
    | cons q qs ih => rw [List.foldl_cons, ih]; rfl
  constructor
  · show (ps.foldl addPreviewedFile (setPreviewMode s true)).history = s.history
    rw [hfold]; rfl
  · rfl

/-- C7: a forced touch performed twice in a row for the same path leaves
exactly one history entry whose relative path is the path's relative path,
and that entry is at the front; moreover one touch (forced or event-driven)
preserves the at-most-one-entry-per-relative-path invariant. -/
theorem touch_twice_unique_front (s : HistState) (p : String)
    (l₁ c₁ t₁ l₂ c₂ t₂ tu : Nat) (ed : Editor)
    (hwf : histWF s.history)
    (hnd : (s.history.map HistoryEntry.relativePath).Nodup) :
    ((forceAddToHistory (forceAddToHistory s p l₁ c₁ t₁) p l₂ c₂ t₂).history.countP
        (fun e => e.relativePath == asRelativePath p) = 1 ∧
      (forceAddToHistory (forceAddToHistory s p l₁ c₁ t₁) p l₂ c₂ t₂).history.head?.map
        HistoryEntry.relativePath = some (asRelativePath p)) ∧
    ((forceAddToHistory s p l₁ c₁ t₁).history.map HistoryEntry.relativePath).Nodup ∧
    ((updateHistory s ed tu).history.map HistoryEntry.relativePath).Nodup := by
  have hwf1 : histWF (forceAddToHistory s p l₁ c₁ t₁).history :=
    histWF_touch rfl hwf
  have hnd1 : ((forceAddToHistory s p l₁ c₁ t₁).history.map
      HistoryEntry.relativePath).Nodup :=
    touch_nodup rfl hnd hwf
  have hmain := touch_countP_head (l := (forceAddToHistory s p l₁ c₁ t₁).history)
    (r := asRelativePath p) (w := newFileEntry p l₂ c₂ t₂) rfl
    (countP_le_one_of_nodup _ hnd1) hwf1
  refine ⟨⟨hmain.1, ?_⟩, hnd1, ?_⟩
  · rw [show (forceAddToHistory (forceAddToHistory s p l₁ c₁ t₁) p l₂ c₂ t₂).history.head?
        = some (newFileEntry p l₂ c₂ t₂) from hmain.2]
    rfl
  · unfold updateHistory
    split
    · exact hnd
    · exact touch_nodup rfl hnd hwf

/-- Witness for C7 at a concrete input: the empty store. -/
theorem touch_twice_unique_front_witness :
    (histWF ([] : List HistoryEntry) ∧
      (([] : List HistoryEntry).map HistoryEntry.relativePath).Nodup) ∧
    ((forceAddToHistory (forceAddToHistory ⟨[], false, [], none⟩ "/ws/a.ts" 1 2 3)
        "/ws/a.ts" 4 5 6).history.countP
        (fun e => e.relativePath == asRelativePath "/ws/a.ts") = 1 ∧
      (forceAddToHistory (forceAddToHistory ⟨[], false, [], none⟩ "/ws/a.ts" 1 2 3)
        "/ws/a.ts" 4 5 6).history.head?.map HistoryEntry.relativePath
        = some (asRelativePath "/ws/a.ts")) :=
  ⟨⟨by decide, by decide⟩,
    ((touch_twice_unique_front ⟨[], false, [], none⟩ "/ws/a.ts" 1 2 3 4 5 6 7
      ⟨⟨"file", "/ws/b.ts"⟩, 0, 0⟩ (by decide) (by decide)).1 : _)⟩

/-- C8: after a touch on a store within capacity the store still holds at
most `MAX_HISTORY_SIZE` entries, and a forced touch on a full store for a
path with no existing entry evicts exactly the tail entry. -/
theorem history_capacity (s : HistState) (p : String) (lp cp t tu : Nat)
    (ed : Editor) (hlen : s.history.length ≤ MAX_HISTORY_SIZE) :
    (forceAddToHistory s p lp cp t).history.length ≤ MAX_HISTORY_SIZE ∧
    (updateHistory s ed tu).history.length ≤ MAX_HISTORY_SIZE ∧
    (s.history.length = MAX_HISTORY_SIZE →
      (∀ e ∈ s.history, asRelativePath e.uri.fsPath ≠ asRelativePath p) →
      (forceAddToHistory s p lp cp t).history
        = newFileEntry p lp cp t :: s.history.dropLast) := by
  refine ⟨touch_length_le hlen _ _, ?_, ?_⟩
  · unfold updateHistory
    split
    · exact hlen
    · exact touch_length_le hlen _ _
  · intro hfull hnone
    show trimHistory (newFileEntry p lp cp t ::
      histEraseRel s.history (asRelativePath p)) = _
    have herase : histEraseRel s.history (asRelativePath p) = s.history := by
      unfold histEraseRel
      apply List.eraseP_of_forall_not
      intro e he
      simp [hnone e he]
    rw [herase]
    unfold trimHistory
    rw [if_pos (by rw [List.length_cons, hfull]; decide)]
    cases hh : s.history with
    | nil => rw [hh] at hfull; simp [MAX_HISTORY_SIZE] at hfull
    | cons b bs => rw [List.dropLast_cons₂]

/-- Witness for C8 at a concrete input: the empty store. -/
theorem history_capacity_witness :
    (([] : List HistoryEntry).length ≤ MAX_HISTORY_SIZE) ∧
    (forceAddToHistory ⟨[], false, [], none⟩ "/ws/a.ts" 1 2 3).history.length
      ≤ MAX_HISTORY_SIZE :=
  ⟨by decide,
    (history_capacity ⟨[], false, [], none⟩ "/ws/a.ts" 1 2 3 4
      ⟨⟨"file", "/ws/b.ts"⟩, 0, 0⟩ (by decide)).1⟩

/-- C9: an editor-activation touch for a document whose URI scheme is not
`file` leaves the store unchanged through both registered listeners; the
operation is total, so no failure is raised. -/
theorem nonfile_touch_noop (s : HistState) (ed : Editor) (now : Nat)
    (h : ed.uri.scheme ≠ "file") :
    activationEvent s ed now = s ∧ regListener s ed now = s ∧
    ctorListener s ed now = s := by
  have hb : (ed.uri.scheme == "file") = false := by
    simp only [beq_eq_false_iff_ne, ne_eq]
    exact h
  refine ⟨?_, ?_, ?_⟩ <;>
    simp [activationEvent, regListener, ctorListener, hb]

/-- Witness for C9 at a concrete input: an `untitled` document. -/
theorem nonfile_touch_noop_witness :
    ((⟨⟨"untitled", "x"⟩, 0, 0⟩ : Editor).uri.scheme ≠ "file") ∧
    activationEvent ⟨[], false, [], none⟩ ⟨⟨"untitled", "x"⟩, 0, 0⟩ 5
      = ⟨[], false, [], none⟩ :=
  ⟨by decide,
    (nonfile_touch_noop ⟨[], false, [], none⟩ ⟨⟨"untitled", "x"⟩, 0, 0⟩ 5
      (by decide)).1⟩

/-- C10: a touch (forced or event-driven) for a path leaves every history
entry for any other relative path untouched: the sublist of entries for
other relative paths, with all their stored fields, is unchanged — both when
the touched path was already present and when it is newly inserted without
exceeding capacity. -/
theorem touch_preserves_other_entries (s : HistState) (p : String)
    (lp cp t tu : Nat) (ed : Editor)
    (hwf : histWF s.history) (hlen : s.history.length ≤ MAX_HISTORY_SIZE)
    (hinp : asRelativePath p ∈ s.history.map HistoryEntry.relativePath ∨
      s.history.length < MAX_HISTORY_SIZE)
    (hined : asRelativePath ed.uri.fsPath ∈ s.history.map HistoryEntry.relativePath ∨
      s.history.length < MAX_HISTORY_SIZE) :
    (forceAddToHistory s p lp cp t).history.filter
        (fun e => !(e.relativePath == asRelativePath p))
      = s.history.filter (fun e => !(e.relativePath == asRelativePath p)) ∧
    (updateHistory s ed tu).history.filter
        (fun e => !(e.relativePath == asRelativePath ed.uri.fsPath))
      = s.history.filter (fun e => !(e.relativePath == asRelativePath ed.uri.fsPath)) := by
  constructor
  · exact touch_frame rfl hwf hlen hinp
  · unfold updateHistory
    split
    · rfl
    · exact touch_frame rfl hwf hlen hined

/-! ## Helper lemmas for the preview session -/

theorem mem_touch {l : List HistoryEntry} {rp : String} {ent e : HistoryEntry}
    (he : e ∈ trimHistory (ent :: histEraseRel l rp)) : e = ent ∨ e ∈ l := by
  rcases List.mem_cons.mp (mem_trimHistory he) with rfl | h'
  · exact Or.inl rfl
  · unfold histEraseRel at h'
    exact Or.inr (List.mem_of_mem_eraseP h')

theorem contains_addPreviewedFile (t : HistState) (p : String) :
    (addPreviewedFile t p).previewedFiles.contains p = true := by
  unfold addPreviewedFile
  dsimp only
  split
  · assumption
  · simp

/-- While preview mode is on with the file suppressed and no pending
explicit open, an activation event leaves the store unchanged: both
listeners skip. -/
theorem suppressed_event_noop {h : HistState} {d : Editor} {n : Nat}
    (hpm : h.previewMode = true)
    (hcont : h.previewedFiles.contains d.uri.fsPath = true)
    (hlo : h.lastOpenedFile = none) :
    activationEvent h d n = h := by
  have hc : (d.uri.scheme == "file"
      && (!h.previewMode || !h.previewedFiles.contains d.uri.fsPath
          || h.lastOpenedFile == some d.uri.fsPath)) = false := by
    rw [hpm, hcont, hlo]
    simp
  have hc' : (d.uri.scheme == "file" && !h.previewMode) = false := by
    rw [hpm]
    simp
  have h1 : ctorListener h d n = h := by
    unfold ctorListener
    rw [hc']
    simp
  have h2 : regListener h d n = h := by
    unfold regListener
    rw [hc]
    simp
  unfold activationEvent
  rw [h1, h2]

/-- Outside preview mode `updateHistory` always commits. -/
theorem updateHistory_of_not_preview {g : HistState} {d : Editor} {n : Nat}
    (hg : g.previewMode = false) :
    updateHistory g d n =
      { g with lastOpenedFile := none,
               history := trimHistory (editorEntry d n ::
                 histEraseRel g.history (asRelativePath d.uri.fsPath)) } := by
  unfold updateHistory
  rw [if_neg (by simp [hg])]

/-- Outside preview mode an activation event for a `file` document runs
`updateHistory` twice: once per registered listener. -/
theorem activationEvent_of_not_preview {h : HistState} {d : Editor} {n : Nat}
    (hpm : h.previewMode = false) (hs : d.uri.scheme = "file") :
    activationEvent h d n = updateHistory (updateHistory h d n) d n := by
  have hpm1 : (updateHistory h d n).previewMode = false := by
    rw [updateHistory_of_not_preview hpm]
    exact hpm
  have h1 : ctorListener h d n = updateHistory h d n := by
    unfold ctorListener
    rw [hs, hpm]
    simp
  have h2 : regListener (updateHistory h d n) d n
      = updateHistory (updateHistory h d n) d n := by
    unfold regListener
    rw [hs, hpm1]
    simp
  unfold activationEvent
  rw [h1, h2]

/-- The history effect of an unsuppressed activation event: the editor's
entry moves to the front and every other entry comes from the prior list. -/
theorem activationEvent_unsuppressed {h : HistState} {d : Editor} {n : Nat}
    (hpm : h.previewMode = false) (hs : d.uri.scheme = "file") :
    (activationEvent h d n).history.head? = some (editorEntry d n) ∧
    (∀ e ∈ (activationEvent h d n).history,
      e = editorEntry d n ∨ e ∈ h.history) ∧
    (activationEvent h d n).previewMode = false := by
  have hpm1 : (updateHistory h d n).previewMode = false := by
    rw [updateHistory_of_not_preview hpm]; exact hpm
  rw [activationEvent_of_not_preview hpm hs,
    updateHistory_of_not_preview hpm1, updateHistory_of_not_preview hpm]
  refine ⟨head?_trimHistory_cons _ _, ?_, hpm⟩
  intro e he
  rcases mem_touch he with rfl | h'
  · exact Or.inl rfl
  · rcases mem_touch h' with rfl | h''
    · exact Or.inl rfl
    · exact Or.inr h''

/-- A previewed candidate leaves the history, the preview flag, and the
pending-open marker untouched, and does not disturb the snapshot. -/
theorem peek_suppressed {s : Session} {p : String} {i j n : Nat}
    (hpm : s.hist.previewMode = true) (hlo : s.hist.lastOpenedFile = none) :
    (peekItemSession s p i j n).hist.history = s.hist.history ∧
    (peekItemSession s p i j n).hist.previewMode = true ∧
    (peekItemSession s p i j n).hist.lastOpenedFile = none ∧
    (peekItemSession s p i j n).prevActive = s.prevActive := by
  unfold peekItemSession
  split
  · exact ⟨rfl, hpm, hlo, rfl⟩
  · have hev : activationEvent (addPreviewedFile s.hist p) ⟨⟨"file", p⟩, i, j⟩ n
        = addPreviewedFile s.hist p :=
      suppressed_event_noop hpm (contains_addPreviewedFile _ _) hlo
    dsimp only
    rw [hev]
    exact ⟨rfl, hpm, hlo, rfl⟩

/-- Browsing any number of candidates in a preview session leaves the
history, the preview flag, the pending-open marker, and the snapshot
untouched. -/
theorem browse_suppressed {u : List (String × Nat × Nat)} {s : Session} {n : Nat}
    (hpm : s.hist.previewMode = true) (hlo : s.hist.lastOpenedFile = none) :
    (browse s u n).hist.history = s.hist.history ∧
    (browse s u n).hist.previewMode = true ∧
    (browse s u n).hist.lastOpenedFile = none ∧
    (browse s u n).prevActive = s.prevActive := by
  induction u generalizing s with
  | nil => exact ⟨rfl, hpm, hlo, rfl⟩
  | cons q qs ih =>
    obtain ⟨h1, h2, h3, h4⟩ := peek_suppressed (s := s) (p := q.1)
      (i := q.2.1) (j := q.2.2) (n := n) hpm hlo
    obtain ⟨g1, g2, g3, g4⟩ := ih (s := peekItemSession s q.1 q.2.1 q.2.2 n) h2 h3
    have hfold : browse s (q :: qs) n
        = browse (peekItemSession s q.1 q.2.1 q.2.2 n) qs n := rfl
    rw [hfold]
    exact ⟨g1.trans h1, g2, g3, g4.trans h4⟩

/-- The history effect of accepting a candidate, for any session state: the
accepted path's entry ends up at the front, and every other entry was
already in the store. -/
theorem acceptSession_hist (sb : Session) (a : String) (al ac na : Nat) :
    ((acceptSession sb a al ac na).hist.history.head?.map HistoryEntry.relativePath
      = some (asRelativePath a)) ∧
    (∀ e ∈ (acceptSession sb a al ac na).hist.history,
      e.relativePath = asRelativePath a ∨ e ∈ sb.hist.history) ∧
    (acceptSession sb a al ac na).hist.previewMode = false := by
  by_cases hbin : isBinaryFile a = true
  · have hs1 : (acceptSession sb a al ac na).hist.history
        = trimHistory (newFileEntry a al ac na ::
            histEraseRel sb.hist.history (asRelativePath a)) := by
      unfold acceptSession
      rw [if_pos hbin]
      rfl
    refine ⟨?_, ?_, ?_⟩
    · rw [hs1, head?_trimHistory_cons]; rfl
    · intro e he
      rw [hs1] at he
      rcases mem_touch he with rfl | h'
      · exact Or.inl rfl
      · exact Or.inr h'
    · unfold acceptSession
      rw [if_pos hbin]
      rfl
  · have hpm2 : (forceAddToHistory (setPreviewMode sb.hist false) a al ac na).previewMode
        = false := rfl
    obtain ⟨hhead, hmem, -⟩ := activationEvent_unsuppressed
      (h := forceAddToHistory (setPreviewMode sb.hist false) a al ac na)
      (d := ⟨⟨"file", a⟩, al, ac⟩) (n := na) hpm2 rfl
    have hs1 : (acceptSession sb a al ac na).hist.history
        = (activationEvent (forceAddToHistory (setPreviewMode sb.hist false) a al ac na)
            ⟨⟨"file", a⟩, al, ac⟩ na).history := by
      unfold acceptSession
      rw [if_neg hbin]
      rfl
    refine ⟨?_, ?_, ?_⟩
    · rw [hs1, hhead]; rfl
    · intro e he
      rw [hs1] at he
      rcases hmem e he with rfl | h'
      · exact Or.inl rfl
      · rcases mem_touch h' with rfl | h''
        · exact Or.inl rfl
        · exact Or.inr h''
    · unfold acceptSession
      rw [if_neg hbin]
      rfl

/-- Removing the front entry and re-inserting a fresh one for the same
relative path keeps the list's shape when the store is within capacity. -/
theorem touch_front_exact {rp : String} {ent e0 : HistoryEntry}
    {rest : List HistoryEntry}
    (hkey : asRelativePath e0.uri.fsPath = rp)
    (hlen : (e0 :: rest).length ≤ MAX_HISTORY_SIZE) :
    trimHistory (ent :: histEraseRel (e0 :: rest) rp) = ent :: rest := by
  have herase : histEraseRel (e0 :: rest) rp = rest := by
    unfold histEraseRel
    apply List.eraseP_cons_of_pos
    simp [hkey]
  rw [herase]
  unfold trimHistory
  rw [if_neg]
  simp only [List.length_cons, not_lt]
  simp only [List.length_cons] at hlen
  omega

theorem cancelSession_eq (sb : Session) (nc : Nat) (ed0 : Editor)
    (hprev : sb.prevActive = some ed0) :
    cancelSession sb nc =
      (if sb.active.map Editor.uri == some ed0.uri then
        { hist := setPreviewMode sb.hist false, active := some ed0, prevActive := none }
      else
        { hist := activationEvent (setPreviewMode sb.hist false) ed0 nc,
          active := some ed0, prevActive := none }) := by
  unfold cancelSession
  rw [hprev]

/-- C5: accepting a candidate during a browsing session disables preview
mode and forces its path into history even though the path was registered as
preview-suppressed: afterwards the front history entry is the accepted file,
and a browsed-but-not-accepted candidate has no entry unless it already had
one before the session. -/
theorem accept_commits_selected (s : Session) (ps : List (String × Nat × Nat))
    (a : String) (al ac nb na : Nat)
    (hlo : s.hist.lastOpenedFile = none) :
    ((acceptSession (browse (sessionOpen s) ps nb) a al ac na).hist.history.head?.map
        HistoryEntry.relativePath = some (asRelativePath a)) ∧
    ((acceptSession (browse (sessionOpen s) ps nb) a al ac na).hist.previewMode
        = false) ∧
    (∀ q ∈ ps, asRelativePath q.1 ≠ asRelativePath a →
      (∀ e ∈ s.hist.history, e.relativePath ≠ asRelativePath q.1) →
      ∀ e ∈ (acceptSession (browse (sessionOpen s) ps nb) a al ac na).hist.history,
        e.relativePath ≠ asRelativePath q.1) := by
  have hopen_pm : (sessionOpen s).hist.previewMode = true := rfl
  have hopen_lo : (sessionOpen s).hist.lastOpenedFile = none := hlo
  obtain ⟨hbh, -, -, -⟩ :=
    browse_suppressed (u := ps) (s := sessionOpen s) (n := nb) hopen_pm hopen_lo
  obtain ⟨hhead, hmem, hpm⟩ :=
    acceptSession_hist (browse (sessionOpen s) ps nb) a al ac na
  refine ⟨hhead, hpm, ?_⟩
  intro q _ hqa hnotin e he
  rcases hmem e he with hrel | hold
  · rw [hrel]
    exact fun hcon => hqa hcon.symm
  · have : e ∈ s.hist.history := by
      rw [hbh] at hold
      exact hold
    exact hnotin e this

/-- Witness for C5 at a concrete input: previewing `a.ts` and `c.ts`, then
accepting `a.ts`, from a store holding only `b.ts`. -/
theorem accept_commits_selected_witness :
    ((⟨⟨[⟨⟨"file", "/ws/b.ts"⟩, 0, 10, 0, "b.ts"⟩], false, [], none⟩,
        some ⟨⟨"file", "/ws/b.ts"⟩, 10, 0⟩, none⟩ : Session).hist.lastOpenedFile
      = none) ∧
    ((acceptSession (browse (sessionOpen
        ⟨⟨[⟨⟨"file", "/ws/b.ts"⟩, 0, 10, 0, "b.ts"⟩], false, [], none⟩,
          some ⟨⟨"file", "/ws/b.ts"⟩, 10, 0⟩, none⟩)
        [("/ws/a.ts", 0, 0), ("/ws/c.ts", 0, 0)] 1) "/ws/a.ts" 0 0 2).hist.history.head?.map
        HistoryEntry.relativePath = some (asRelativePath "/ws/a.ts")) :=
  ⟨rfl,
    (accept_commits_selected
      ⟨⟨[⟨⟨"file", "/ws/b.ts"⟩, 0, 10, 0, "b.ts"⟩], false, [], none⟩,
        some ⟨⟨"file", "/ws/b.ts"⟩, 10, 0⟩, none⟩
      [("/ws/a.ts", 0, 0), ("/ws/c.ts", 0, 0)] "/ws/a.ts" 0 0 1 2 rfl).1⟩

/-- C6, counterexample: cancelling a session does NOT leave the History
Store's entry list identical to its pre-session state.  Starting from a
store holding `b.ts` (timestamp 0) with `b.ts` active, previewing `a.ts`
and cancelling restores `b.ts` as active, but the restore re-fires the
activation listeners with preview mode already off, so `b.ts`'s entry is
re-inserted with a fresh timestamp: the entry list differs from the
pre-session one. -/
theorem cancel_history_counterexample :
    (cancelSession (peekItemSession (sessionOpen
        ⟨⟨[⟨⟨"file", "/ws/b.ts"⟩, 0, 10, 0, "b.ts"⟩], false, [], none⟩,
          some ⟨⟨"file", "/ws/b.ts"⟩, 10, 0⟩, none⟩)
        "/ws/a.ts" 0 0 1) 2).hist.history
      = [⟨⟨"file", "/ws/b.ts"⟩, 2, 10, 0, "b.ts"⟩] ∧
    (cancelSession (peekItemSession (sessionOpen
        ⟨⟨[⟨⟨"file", "/ws/b.ts"⟩, 0, 10, 0, "b.ts"⟩], false, [], none⟩,
          some ⟨⟨"file", "/ws/b.ts"⟩, 10, 0⟩, none⟩)
        "/ws/a.ts" 0 0 1) 2).hist.history
      ≠ [⟨⟨"file", "/ws/b.ts"⟩, 0, 10, 0, "b.ts"⟩] ∧
    (cancelSession (peekItemSession (sessionOpen
        ⟨⟨[⟨⟨"file", "/ws/b.ts"⟩, 0, 10, 0, "b.ts"⟩], false, [], none⟩,
          some ⟨⟨"file", "/ws/b.ts"⟩, 10, 0⟩, none⟩)
        "/ws/a.ts" 0 0 1) 2).active = some ⟨⟨"file", "/ws/b.ts"⟩, 10, 0⟩ := by
  refine ⟨by decide, by decide, by decide⟩

/-- C6, amended: cancelling a preview session after browsing any number of
candidates restores exactly the previously active file with its original
cursor position, clears the suppression set, and preserves the history's
sequence of relative paths; the restored file's front entry is merely
re-touched (fresh timestamp and cursor) by the activation listener, all
other entries and the order being untouched.  The previously active file is
assumed to hold the front history entry, as a normal activation leaves it. -/
theorem cancel_restores_previous (s : Session) (ps : List (String × Nat × Nat))
    (nb nc : Nat) (ed0 : Editor) (e0 : HistoryEntry) (rest : List HistoryEntry)
    (hact : s.active = some ed0)
    (hsch : ed0.uri.scheme = "file")
    (hlo : s.hist.lastOpenedFile = none)
    (hhist : s.hist.history = e0 :: rest)
    (hrel : e0.relativePath = asRelativePath ed0.uri.fsPath)
    (hkey : asRelativePath e0.uri.fsPath = asRelativePath ed0.uri.fsPath)
    (hlen : s.hist.history.length ≤ MAX_HISTORY_SIZE) :
    (cancelSession (browse (sessionOpen s) ps nb) nc).active = some ed0 ∧
    (cancelSession (browse (sessionOpen s) ps nb) nc).hist.history.map
        HistoryEntry.relativePath
      = s.hist.history.map HistoryEntry.relativePath ∧
    (cancelSession (browse (sessionOpen s) ps nb) nc).hist.previewedFiles = [] ∧
    (cancelSession (browse (sessionOpen s) ps nb) nc).hist.previewMode = false := by
  have hopen_pm : (sessionOpen s).hist.previewMode = true := rfl
  have hopen_lo : (sessionOpen s).hist.lastOpenedFile = none := hlo
  obtain ⟨hbh, -, -, hbprev⟩ :=
    browse_suppressed (u := ps) (s := sessionOpen s) (n := nb) hopen_pm hopen_lo
  have hprev : (browse (sessionOpen s) ps nb).prevActive = some ed0 := by
    rw [hbprev]
    show s.active = some ed0
    exact hact
  have hh1 : (setPreviewMode (browse (sessionOpen s) ps nb).hist false).history
      = e0 :: rest := by
    show (browse (sessionOpen s) ps nb).hist.history = e0 :: rest
    rw [hbh]
    exact hhist
  have hlen' : (e0 :: rest).length ≤ MAX_HISTORY_SIZE := hhist ▸ hlen
  have hmapgoal : (e0 :: rest).map HistoryEntry.relativePath
      = s.hist.history.map HistoryEntry.relativePath := by rw [hhist]
  rw [cancelSession_eq _ _ _ hprev]
  split
  · refine ⟨rfl, ?_, rfl, rfl⟩
    show (setPreviewMode (browse (sessionOpen s) ps nb).hist false).history.map
        HistoryEntry.relativePath = _
    rw [hh1, hmapgoal]
  · have hpmf : (setPreviewMode (browse (sessionOpen s) ps nb).hist false).previewMode
        = false := rfl
    have hu1 := updateHistory_of_not_preview
      (g := setPreviewMode (browse (sessionOpen s) ps nb).hist false)
      (d := ed0) (n := nc) hpmf
    have hu1hist : (updateHistory
        (setPreviewMode (browse (sessionOpen s) ps nb).hist false) ed0 nc).history
        = editorEntry ed0 nc :: rest := by
      rw [hu1]
      show trimHistory (editorEntry ed0 nc ::
        histEraseRel (setPreviewMode (browse (sessionOpen s) ps nb).hist false).history
          (asRelativePath ed0.uri.fsPath)) = _
      rw [hh1]
      exact touch_front_exact hkey hlen'
    have hu1pm : (updateHistory
        (setPreviewMode (browse (sessionOpen s) ps nb).hist false) ed0 nc).previewMode
        = false := by
      rw [hu1]
      exact hpmf
    have hu2 := updateHistory_of_not_preview
      (g := updateHistory (setPreviewMode (browse (sessionOpen s) ps nb).hist false) ed0 nc)
      (d := ed0) (n := nc) hu1pm
    have hu2hist : (updateHistory (updateHistory
        (setPreviewMode (browse (sessionOpen s) ps nb).hist false) ed0 nc) ed0 nc).history
        = editorEntry ed0 nc :: rest := by
      rw [hu2, hu1hist]
      exact touch_front_exact rfl (by simpa using hlen')
    have hev := activationEvent_of_not_preview
      (h := setPreviewMode (browse (sessionOpen s) ps nb).hist false)
      (d := ed0) (n := nc) hpmf hsch
    refine ⟨rfl, ?_, ?_, ?_⟩
    · show (activationEvent (setPreviewMode (browse (sessionOpen s) ps nb).hist false)
          ed0 nc).history.map HistoryEntry.relativePath = _
      rw [hev, hu2hist, ← hmapgoal]
      simp only [List.map_cons]
      rw [show (editorEntry ed0 nc).relativePath = e0.relativePath from hrel.symm]
    · show (activationEvent (setPreviewMode (browse (sessionOpen s) ps nb).hist false)
          ed0 nc).previewedFiles = []
      rw [hev, hu2, hu1]
      rfl
    · show (activationEvent (setPreviewMode (browse (sessionOpen s) ps nb).hist false)
          ed0 nc).previewMode = false
      rw [hev, hu2]
      exact hu1pm

/-- Witness for C6 at a concrete input: previewing `a.ts` from `b.ts` and
cancelling. -/
theorem cancel_restores_previous_witness :
    ((⟨⟨[⟨⟨"file", "/ws/b.ts"⟩, 0, 10, 0, "b.ts"⟩], false, [], none⟩,
        some ⟨⟨"file", "/ws/b.ts"⟩, 10, 0⟩, none⟩ : Session).active
      = some ⟨⟨"file", "/ws/b.ts"⟩, 10, 0⟩) ∧
    (cancelSession (browse (sessionOpen
        ⟨⟨[⟨⟨"file", "/ws/b.ts"⟩, 0, 10, 0, "b.ts"⟩], false, [], none⟩,
          some ⟨⟨"file", "/ws/b.ts"⟩, 10, 0⟩, none⟩)
        [("/ws/a.ts", 0, 0)] 1) 2).active = some ⟨⟨"file", "/ws/b.ts"⟩, 10, 0⟩ :=
  ⟨rfl,
    (cancel_restores_previous
      ⟨⟨[⟨⟨"file", "/ws/b.ts"⟩, 0, 10, 0, "b.ts"⟩], false, [], none⟩,
        some ⟨⟨"file", "/ws/b.ts"⟩, 10, 0⟩, none⟩
      [("/ws/a.ts", 0, 0)] 1 2 ⟨⟨"file", "/ws/b.ts"⟩, 10, 0⟩
      ⟨⟨"file", "/ws/b.ts"⟩, 0, 10, 0, "b.ts"⟩ []
      rfl rfl rfl rfl (by decide) (by decide) (by decide)).1⟩

/-- Witness for C10 at a concrete input: a one-entry store. -/
theorem touch_preserves_other_entries_witness :
    (histWF [⟨⟨"file", "/ws/b.ts"⟩, 0, 10, 0, "b.ts"⟩] ∧
      ([⟨⟨"file", "/ws/b.ts"⟩, 0, 10, 0, "b.ts"⟩].map HistoryEntry.relativePath).Nodup ∧
      ([(⟨⟨"file", "/ws/b.ts"⟩, 0, 10, 0, "b.ts"⟩ : HistoryEntry)]).length
        ≤ MAX_HISTORY_SIZE) ∧
    (forceAddToHistory ⟨[⟨⟨"file", "/ws/b.ts"⟩, 0, 10, 0, "b.ts"⟩], false, [], none⟩
        "/ws/a.ts" 1 2 3).history.filter
        (fun e => !(e.relativePath == asRelativePath "/ws/a.ts"))
      = [⟨⟨"file", "/ws/b.ts"⟩, 0, 10, 0, "b.ts"⟩].filter
        (fun e => !(e.relativePath == asRelativePath "/ws/a.ts")) :=
  ⟨⟨by decide, by decide, by decide⟩,
    (touch_preserves_other_entries
      ⟨[⟨⟨"file", "/ws/b.ts"⟩, 0, 10, 0, "b.ts"⟩], false, [], none⟩
      "/ws/a.ts" 1 2 3 4 ⟨⟨"file", "/ws/c.ts"⟩, 0, 0⟩
      (by decide) (by decide) (Or.inr (by decide)) (Or.inr (by decide))).1⟩

end SearchPreview
